import Mathlib

/-!
Verification of the Odoo Cloudflare email worker.

The worker ingests one inbound email, runs it through an ordered pipeline of
processors (spam check, parse, domain collapse, subaddressing, re-serialise,
CRM delivery), and classifies the XML-RPC response of the backend.

Text is modelled as `List Char` (the JavaScript code operates on UTF-16
strings; all behaviour relevant here is per-character).  JavaScript regular
expressions used by the code are small, and each is translated into an
explicit scanner with the same match semantics.  The JavaScript whitespace
class is modelled by its ASCII members.
-/

namespace EW

/-- Text modelled as a list of characters. -/
abbrev Str := List Char

/-- Convert a Lean string literal to the character-list model. -/
def str (s : String) : Str := s.toList

/-- The single-quote character (code point 39). -/
def squote : Char := Char.ofNat 39

/-- ASCII members of the JavaScript whitespace class (space, tab, newline,
carriage return, vertical tab, form feed). -/
def isJsWs (c : Char) : Bool :=
  c = ' ' || c = '\t' || c = '\n' || c = '\r' || c = Char.ofNat 11 || c = Char.ofNat 12

/-- The ASCII upper-case letters. -/
def upperChars : List Char :=
  ['A', 'B', 'C', 'D', 'E', 'F', 'G', 'H', 'I', 'J', 'K', 'L', 'M',
   'N', 'O', 'P', 'Q', 'R', 'S', 'T', 'U', 'V', 'W', 'X', 'Y', 'Z']

/-- Lower-case an ASCII letter, as `String.prototype.toLowerCase` does on
ASCII input. -/
def jsToLower (c : Char) : Char :=
  if c ∈ upperChars then Char.ofNat (c.toNat + 32) else c

/-- `toLowerCase` on a whole string. -/
def toLowerList (s : Str) : Str := s.map jsToLower

/-- Drop leading JavaScript whitespace. -/
def trimLeft (s : Str) : Str := s.dropWhile isJsWs

/-- Drop trailing JavaScript whitespace. -/
def trimRight (s : Str) : Str := (s.reverse.dropWhile isJsWs).reverse

/-- `String.prototype.trim`. -/
def jsTrim (s : Str) : Str := trimRight (trimLeft s)

/-- `String.prototype.includes` (case sensitive substring test). -/
def containsSubstr : Str → Str → Bool
  | s@(_ :: t), pat => pat.isPrefixOf s || containsSubstr t pat
  | [], pat => pat.isEmpty

/-- Split a list at the first occurrence of `c` (JavaScript `indexOf` plus
the two `substring` calls); `none` when `c` does not occur. -/
def splitAtFirst (c : Char) : Str → Option (Str × Str)
  | [] => none
  | x :: xs =>
    if x = c then some ([], xs)
    else (splitAtFirst c xs).map (fun p => (x :: p.1, p.2))

/-- Split on every occurrence of `c`, JavaScript `String.prototype.split`
semantics (an empty input yields one empty piece). -/
def splitOnChar (c : Char) : Str → List Str
  | [] => [[]]
  | x :: xs =>
    if x = c then [] :: splitOnChar c xs
    else
      match splitOnChar c xs with
      | [] => [[x]]
      | y :: ys => (x :: y) :: ys

/-- Normalise line terminators: the JavaScript `replace(/\r?\n/g, '\n')`. -/
def normalizeNewlines : Str → Str
  | [] => []
  | [c] => [c]
  | c :: d :: rest =>
    if c = '\r' && d = '\n' then '\n' :: normalizeNewlines rest
    else c :: normalizeNewlines (d :: rest)

/-- Decoded text split into lines, as `text.replace(/\r?\n/g, '\n').split('\n')`. -/
def splitLinesNL (s : Str) : List Str := splitOnChar '\n' (normalizeNewlines s)

/-- One parsed header: the raw rendering plus the derived name and value. -/
structure Header where
  raw : Str
  name : Str
  value : Str
deriving DecidableEq

/-- A parsed email: ordered header sequence plus the body text. -/
structure ParsedEmail where
  headers : List Header
  body : Str
deriving DecidableEq

/-- Build the raw rendering `name: value` used throughout the worker. -/
def mkHeader (n v : Str) : Header := ⟨n ++ ':' :: ' ' :: v, n, v⟩

/-- Flush the current header accumulator (JavaScript pushes it only when the
current name is a non-empty string). -/
def flushHeader (n v : Str) : List Header :=
  if n = [] then [] else [mkHeader n v]

/-- Does a line start a folded-header continuation (`/^[ \t]/`)? -/
def isContStart : Str → Bool
  | [] => false
  | c :: _ => c = ' ' || c = '\t'

/-- The header loop of `parseEmail`: processes lines, carrying the current
header name and value; returns the headers plus the remaining body lines. -/
def parseLoop : List Str → Str → Str → List Header × List Str
  | [], n, v => (flushHeader n v, [])
  | line :: rest, n, v =>
    if jsTrim line = [] then (flushHeader n v, rest)
    else if isContStart line then parseLoop rest n (v ++ ' ' :: jsTrim line)
    else
      match splitAtFirst ':' line with
      | some (pre, post) =>
        let r := parseLoop rest (jsTrim pre) (jsTrim post)
        (flushHeader n v ++ r.1, r.2)
      | none =>
        let r := parseLoop rest (jsTrim line) []
        (flushHeader n v ++ r.1, r.2)

/-- `parseEmail`: split the decoded text into lines, fold headers, and take
everything after the first blank line as the body. -/
def parseEmail (text : Str) : ParsedEmail :=
  let r := parseLoop (splitLinesNL text) [] []
  ⟨r.1, List.intercalate ['\n'] r.2⟩

/-- The serialized rendering of one header, `name: value`. -/
def hline (h : Header) : Str := h.name ++ ':' :: ' ' :: h.value

/-- The CRLF line terminator. -/
def crlf : Str := ['\r', '\n']

/-- `reSerialiseEmail`: render each header as `name: value`, join with CRLF,
append a blank line and the body. -/
def reSerialiseEmail (headers : List Header) (body : Str) : Str :=
  List.intercalate crlf (headers.map hline) ++ crlf ++ crlf ++ body

/-! ## Address utilities -/

/-- `splitAddresses` scanner state: toggle `inQuotes` on each double quote,
split on commas only outside quotes, trim each piece; a blank final piece is
dropped. -/
def splitAux : Str → Str → Bool → List Str
  | [], cur, _ => if jsTrim cur = [] then [] else [jsTrim cur]
  | c :: rest, cur, inQ =>
    if c = '"' then splitAux rest (cur ++ ['"']) (!inQ)
    else if c = ',' && !inQ then jsTrim cur :: splitAux rest [] inQ
    else splitAux rest (cur ++ [c]) inQ

/-- `splitAddresses`: split a header value into candidate address strings. -/
def splitAddresses (v : Str) : List Str := splitAux v [] false

/-- JavaScript `.` (dot) matches this character (no `s` flag): anything but a
line terminator. -/
def dotOkChar (c : Char) : Bool := !(c = '\r' || c = '\n')

/-- A string the regex `.*` can match. -/
def dotOk (l : Str) : Bool := l.all dotOkChar

/-- All ways to split a string at a `<`, as `(before, after)`, in order of
increasing prefix length. -/
def angleCands : Str → List (Str × Str)
  | [] => []
  | c :: rest =>
    (if c = '<' then [(([] : Str), rest)] else [])
      ++ (angleCands rest).map (fun p => (c :: p.1, p.2))

/-- Does a `<`-split satisfy `^(.*)<([^>]+)>.*$` (anchored both ends)? -/
def angleOkFull (p : Str × Str) : Bool :=
  let run := p.2.takeWhile (fun c => !(c = '>'))
  dotOk p.1 && !run.isEmpty &&
    (match p.2.dropWhile (fun c => !(c = '>')) with
     | _ :: t => dotOk t
     | [] => false)

/-- Greedy match of `^(.*)<([^>]+)>.*$`: the last viable `<` wins; returns
the two capture groups. -/
def angleFind (s : Str) : Option (Str × Str) :=
  ((angleCands s).reverse.find? angleOkFull).map
    (fun p => (p.1, p.2.takeWhile (fun c => !(c = '>'))))

/-- `stripQuotes`: remove one layer of surrounding matching quotes. -/
def stripQuotes (s : Str) : Str :=
  if (s.head? = some '"' && s.getLast? = some '"')
      || (s.head? = some squote && s.getLast? = some squote)
  then (s.drop 1).dropLast else s

/-- `parseAddress`: split one address string into display name and mailbox. -/
def parseAddress (addrStr : Str) : Str × Str :=
  match angleFind addrStr with
  | some (pre, run) => (stripQuotes (jsTrim pre), jsTrim run)
  | none => ([], jsTrim addrStr)

/-- `formatAddress`: render as `"name" <address>`, or the bare address when
the display name is empty. -/
def formatAddress (displayName address : Str) : Str :=
  if displayName = [] then address
  else '"' :: displayName ++ '"' :: ' ' :: '<' :: address ++ ['>']

/-! ## Subaddressing -/

/-- Match of `^([^+]+)\+([^@]+)@(.*)$` against a mailbox: local part before
the first `+`, tag up to the `@` after it, domain being the rest (which the
trailing `.*$` forbids from containing a line terminator). -/
def plusMatch (s : Str) : Option (Str × Str × Str) :=
  let loc := s.takeWhile (fun c => !(c = '+'))
  match s.dropWhile (fun c => !(c = '+')) with
  | [] => none
  | _plus :: r2 =>
    if loc.isEmpty then none
    else
      let tag := r2.takeWhile (fun c => !(c = '@'))
      match r2.dropWhile (fun c => !(c = '@')) with
      | [] => none
      | _at :: dom =>
        if tag.isEmpty then none
        else if dotOk dom then some (loc, tag, dom) else none

/-- Strip a subaddress tag from one address piece; returns the tag found (if
any) and the possibly re-formatted piece. -/
def stripPiece (p : Str) : Option Str × Str :=
  let a := parseAddress p
  match plusMatch a.2 with
  | some (loc, tag, dom) => (some tag, formatAddress a.1 (loc ++ '@' :: dom))
  | none => (none, p)

/-- Process the address pieces of a To header, remembering the first tag
found (the worker keeps the first non-empty tag only). -/
def subAuxPieces : List Str → Str → Str × List Str
  | [], tag => (tag, [])
  | p :: ps, tag =>
    match stripPiece p with
    | (some t, q) =>
      let r := subAuxPieces ps (if tag = [] then t else tag)
      (r.1, q :: r.2)
    | (none, q) =>
      let r := subAuxPieces ps tag
      (r.1, q :: r.2)

/-- Process one header inside `processSubaddressing`: every header named
`to` (case-insensitively) has its value re-built and its raw form
regenerated. -/
def subHeader (h : Header) (tag : Str) : Str × Header :=
  if toLowerList h.name = str "to" then
    let r := subAuxPieces (splitAddresses h.value) tag
    (r.1, mkHeader h.name (List.intercalate (str ", ") r.2))
  else (tag, h)

/-- The header traversal of `processSubaddressing`. -/
def subLoop : List Header → Str → Str × List Header
  | [], tag => (tag, [])
  | h :: t, tag =>
    let r1 := subHeader h tag
    let r2 := subLoop t r1.1
    (r2.1, r1.2 :: r2.2)

/-- `processSubaddressing`: strip `local+tag@domain` mailboxes in To headers
and report the first tag found. -/
def processSubaddressing (headers : List Header) : Str × List Header :=
  subLoop headers []

/-- `prependSubjectTag`: prepend `[tag] ` to Subject values that do not
already contain `[tag]` (case-insensitive). -/
def prependSubjectTag (headers : List Header) (tag : Str) : List Header :=
  if tag = [] then headers
  else
    headers.map (fun h =>
      if toLowerList h.name = str "subject" then
        if !containsSubstr (toLowerList h.value) (toLowerList ('[' :: tag ++ [']'])) then
          mkHeader h.name ('[' :: tag ++ ']' :: ' ' :: h.value)
        else h
      else h)

/-- The whole `SubaddressingProcessor` stage on the header list. -/
def subaddressingStage (headers : List Header) : List Header :=
  let r := processSubaddressing headers
  prependSubjectTag r.2 r.1

/-! ## Domain collapse -/

/-- Is a character one of the configured-entry separators `,` `;`? -/
def isSep (c : Char) : Bool := c = ',' || c = ';'

/-- Split on runs of separators (`split(/[,;]+/)`): a run yields one cut. -/
def splitSepsAux : Str → Str → Bool → List Str
  | [], cur, _ => [cur]
  | c :: rest, cur, inRun =>
    if isSep c then
      if inRun then splitSepsAux rest cur true
      else cur :: splitSepsAux rest [] true
    else splitSepsAux rest (cur ++ [c]) false

/-- `split(/[,;]+/)` on the configuration string. -/
def splitSeps (s : Str) : List Str := splitSepsAux s [] false

/-- Insert into the record model: overwrite an existing key, else append. -/
def mapInsert (m : List (Str × Str)) (k v : Str) : List (Str × Str) :=
  if m.any (fun p => p.1 = k) then
    m.map (fun p => if p.1 = k then (k, v) else p)
  else m ++ [(k, v)]

/-- Property-style record lookup (keys are unique by construction). -/
def mapLookup (m : List (Str × Str)) (k : Str) : Option Str :=
  (m.find? (fun p => p.1 = k)).map (fun p => p.2)

/-- One entry of the configuration fold: entries without `=` are skipped, the
domain key is trimmed and lower-cased, empty keys or targets are skipped. -/
def dcEntryStep (m : List (Str × Str)) (e : Str) : List (Str × Str) :=
  match splitAtFirst '=' e with
  | none => m
  | some (pre, post) =>
    if toLowerList (jsTrim pre) ≠ [] && jsTrim post ≠ [] then
      mapInsert m (toLowerList (jsTrim pre)) (jsTrim post)
    else m

/-- The trimmed, non-empty entries of the configuration string. -/
def dcEntries (s : Str) : List Str :=
  ((splitSeps s).map jsTrim).filter (fun e => !e.isEmpty)

/-- `parseDomainCollapseMap`. -/
def parseDomainCollapseMap (s : Str) : List (Str × Str) :=
  (dcEntries s).foldl dcEntryStep []

/-- The worker's domain extraction: `address.split('@')[1] || ''` — the
segment between the first and second `@`. -/
def jsDomainOf (addr : Str) : Str :=
  match splitOnChar '@' addr with
  | _ :: d :: _ => d
  | _ => []

/-- Rewrite one address piece: when the (lower-cased) domain is a configured
key with a non-empty target, replace the whole mailbox, keeping the display
name. -/
def collapseAddrStr (m : List (Str × Str)) (p : Str) : Str :=
  let a := parseAddress p
  match mapLookup m (toLowerList (jsDomainOf a.2)) with
  | some t => if t = [] then p else formatAddress a.1 t
  | none => p

/-- Rewrite one header: To/Cc/Bcc values are rebuilt from their rewritten
addresses and the raw form is regenerated. -/
def collapseHeader (m : List (Str × Str)) (h : Header) : Header :=
  if toLowerList h.name = str "to" || toLowerList h.name = str "cc"
      || toLowerList h.name = str "bcc" then
    mkHeader h.name (List.intercalate (str ", ") ((splitAddresses h.value).map (collapseAddrStr m)))
  else h

/-- Result type of one pipeline processor. -/
structure ProcessingResult where
  canContinue : Bool
  rejectReason : Option Str
deriving DecidableEq

/-- The result every non-rejecting processor returns. -/
def contRes : ProcessingResult := ⟨true, none⟩

/-- The `DomainCollapseProcessor` stage on a parsed email: blank or
entirely-malformed configuration leaves the email untouched; the stage
always continues. -/
def domainCollapseProcess (cfg : Str) (pe : ParsedEmail) : ProcessingResult × ParsedEmail :=
  if jsTrim cfg = [] then (contRes, pe)
  else
    let m := parseDomainCollapseMap cfg
    if m = [] then (contRes, pe)
    else (contRes, ⟨pe.headers.map (collapseHeader m), pe.body⟩)

/-! ## Spam check -/

/-- ASCII alphanumeric, the character class `[A-Za-z0-9]`. -/
def isAsciiAlnum (c : Char) : Bool := c.isAlpha || c.isDigit

/-- Leftmost match of `/<([^>]+)>/`: capture of the first `<` followed by a
non-empty run of non-`>` characters and a `>`. -/
def emailMatchGroup (s : Str) : Option Str :=
  ((angleCands s).find? (fun p =>
      !(p.2.takeWhile (fun c => !(c = '>'))).isEmpty
        && !(p.2.dropWhile (fun c => !(c = '>'))).isEmpty)).map
    (fun p => p.2.takeWhile (fun c => !(c = '>')))

/-- Does a `<`-split satisfy `^(.*)<[^>]+>/` (no end anchor)? -/
def angleOkName (p : Str × Str) : Bool :=
  dotOk p.1 && !(p.2.takeWhile (fun c => !(c = '>'))).isEmpty
    && !(p.2.dropWhile (fun c => !(c = '>'))).isEmpty

/-- Greedy group 1 of `/^(.*)<[^>]+>/`. -/
def nameMatchGroup1 (s : Str) : Option Str :=
  ((angleCands s).reverse.find? angleOkName).map (fun p => p.1)

/-- The blocked sender mailboxes. -/
def blocklist : List Str := [str "spam@example.com", str "blocked@example.com"]

/-- The spam subject keywords. -/
def spamKeywords : List Str :=
  [str "viagra", str "prince", str "winner", str "quick discussion",
   str "intro call", str "exploratory call", str "domaine expirera",
   str "market trends", str "collaboration", str "website builder",
   str "running ads", str "website error", str "content error",
   str "full proposal", str "cost your business", str "send you a quote",
   str "get a sample", str "market research", str "confirm your delivery",
   str "re: proposal", str "urgent notice", str "tax discrepancy"]

/-- The subject keyword test at the end of the spam check. -/
def subjectKeywordCheck (subject : Str) : ProcessingResult :=
  if spamKeywords.any (fun k => containsSubstr (toLowerList subject) k) then
    ⟨false, some (str "Message contains spam keywords.")⟩
  else contRes

/-- The Gmail display-name analysis: an unbroken alphanumeric run with at
least 8 letters whose upper- and lower-case shares both lie in [40%, 60%]
is treated as a spam pattern.  The percentage comparisons are exact rational
comparisons (the JavaScript floating-point computation agrees on all inputs
exercised here). -/
def nameLooksSpammy (senderName : Str) : Bool :=
  senderName.all isAsciiAlnum &&
    (let total := (senderName.filter Char.isAlpha).length
     let up := (senderName.filter Char.isUpper).length
     let low := (senderName.filter Char.isLower).length
     decide (8 ≤ total) &&
       decide (40 * total ≤ 100 * up) && decide (100 * up ≤ 60 * total) &&
       decide (40 * total ≤ 100 * low) && decide (100 * low ≤ 60 * total))

/-- `SpamCheckProcessor.process` as a pure predicate over the From and
Subject header values. -/
def spamCheck (fromH subject : Str) : ProcessingResult :=
  let senderEmail := (emailMatchGroup fromH).getD fromH
  let senderLower := toLowerList senderEmail
  if blocklist.contains senderLower then
    ⟨false, some (str "Sender is blocked.")⟩
  else if (str "@gmail.com").isSuffixOf senderLower then
    let senderName := match nameMatchGroup1 fromH with
      | some g => jsTrim g
      | none => []
    if senderName = [] then ⟨false, some (str "Sender name is missing.")⟩
    else if nameLooksSpammy senderName then
      ⟨false, some (str "Sender name resembles spam pattern.")⟩
    else subjectKeywordCheck subject
  else subjectKeywordCheck subject

/-! ## Pipeline runner -/

/-- What one processor call did: returned a result, or threw. -/
inductive StageOutcome where
  | ret (r : ProcessingResult)
  | threw
deriving DecidableEq

/-- The verdict of one pipeline run. -/
inductive Verdict where
  | rejected (reason : Str)
  | completed
deriving DecidableEq

/-- The fallback reason used when a processor rejects without one. -/
def defaultRejectReason : Str := str "Message rejected by processor."

/-- The reason handed to `setReject`: `result.rejectReason || default`, so a
missing or empty reason falls back to the default. -/
def appliedReason (r : ProcessingResult) : Str :=
  match r.rejectReason with
  | some s => if s = [] then defaultRejectReason else s
  | none => defaultRejectReason

/-- Did this stage outcome let the pipeline continue (a throw is logged and
treated as continue)? -/
def stageContinues : StageOutcome → Bool
  | .threw => true
  | .ret r => r.canContinue

/-- The `email` handler loop over processor outcomes. -/
def runPipeline : List StageOutcome → Verdict
  | [] => .completed
  | .threw :: rest => runPipeline rest
  | .ret r :: rest =>
    if r.canContinue then runPipeline rest else .rejected (appliedReason r)

/-! ## RPC response classification -/

/-- Case-insensitive literal prefix: returns the remainder on success. -/
def ciPrefixRest : Str → Str → Option Str
  | [], s => some s
  | _, [] => none
  | p :: ps, c :: cs => if jsToLower c = jsToLower p then ciPrefixRest ps cs else none

/-- Skip JavaScript whitespace (the greedy `\s*` before a literal that does
not start with whitespace). -/
def skipWs (s : Str) : Str := s.dropWhile isJsWs

/-- The deterministic literal chain of the faultString regex up to and
including `<string>`; returns the text that follows. -/
def faultChainAfter (s : Str) : Option Str :=
  (ciPrefixRest (str "<name>") s).bind fun s1 =>
  (ciPrefixRest (str "faultstring") (skipWs s1)).bind fun s2 =>
  (ciPrefixRest (str "</name>") (skipWs s2)).bind fun s3 =>
  (ciPrefixRest (str "<value>") (skipWs s3)).bind fun s4 =>
  ciPrefixRest (str "<string>") (skipWs s4)

/-- Leftmost start position at which the fault chain matches. -/
def scanFaultChain : Str → Option Str
  | [] => none
  | c :: cs =>
    match faultChainAfter (c :: cs) with
    | some s5 => some s5
    | none => scanFaultChain cs

/-- The text strictly before the first case-insensitive occurrence of `pat`;
`none` when `pat` does not occur. -/
def findCIBefore (pat : Str) : Str → Option Str
  | [] => if pat = [] then some [] else none
  | c :: cs =>
    if (ciPrefixRest pat (c :: cs)).isSome then some []
    else (findCIBefore pat cs).map (fun r => c :: r)

/-- The trimmed faultString payload extracted by the worker's regex, with
its `Unknown fault` fallback.  The lazy capture plus the surrounding greedy
`\s*` and the final `.trim()` make the result the trimmed text between
`<string>` and the first following `</string>`. -/
def extractFaultString (data : Str) : Str :=
  match scanFaultChain data with
  | some s5 =>
    match findCIBefore (str "</string>") s5 with
    | some pre => jsTrim pre
    | none => str "Unknown fault"
  | none => str "Unknown fault"

/-- The digit-run match of `/<int>\s*(\d+)\s*<\/int>/i` at one position. -/
def intChainAt (s : Str) : Option Str :=
  (ciPrefixRest (str "<int>") s).bind fun s1 =>
  let s2 := skipWs s1
  let digits := s2.takeWhile Char.isDigit
  if digits.isEmpty then none
  else (ciPrefixRest (str "</int>") (skipWs (s2.dropWhile Char.isDigit))).map
    (fun _ => digits)

/-- Leftmost match of the int regex. -/
def scanInt : Str → Option Str
  | [] => none
  | c :: cs =>
    match intChainAt (c :: cs) with
    | some d => some d
    | none => scanInt cs

/-- The single-digit match of `/<boolean>\s*(\d)\s*<\/boolean>/i` at one
position. -/
def boolChainAt (s : Str) : Option Char :=
  (ciPrefixRest (str "<boolean>") s).bind fun s1 =>
  match skipWs s1 with
  | [] => none
  | d :: s2 =>
    if d.isDigit then
      (ciPrefixRest (str "</boolean>") (skipWs s2)).map (fun _ => d)
    else none

/-- Leftmost match of the boolean regex. -/
def scanBool : Str → Option Char
  | [] => none
  | c :: cs =>
    match boolChainAt (c :: cs) with
    | some d => some d
    | none => scanBool cs

/-- `parseInt` on a digit run. -/
def digitsToNat (ds : Str) : Nat := ds.foldl (fun acc c => 10 * acc + (c.toNat - 48)) 0

/-- `CrmServerHandler.validateResponse`: `ok`/`statusLine` model the fetch
`Response`, `data` the body text.  A throw is modelled as `.error` carrying
the error message. -/
def validateResponse (ok : Bool) (statusLine : Str) (data : Str) : Except Str Unit :=
  if !ok then .error (str "HTTP Error: " ++ statusLine)
  else if containsSubstr data (str "<fault>") then
    let fs := extractFaultString data
    if containsSubstr fs (str "ValueError: No possible route found for incoming message") then
      .error (str "Mailbox not found or no valid route. Please check the mail alias or CRM configuration.")
    else .error (str "CRM Error: " ++ fs)
  else
    match scanInt data with
    | some digits =>
      if 0 < digitsToNat digits then .ok ()
      else .error (str "Invalid record ID received from CRM.")
    | none =>
      match scanBool data with
      | some d =>
        if d = '0' then .error (str "Email rejected by CRM.") else .ok ()
      | none => .error (str "Unexpected response format from CRM.")

/-! ## Stream reading -/

/-- `TypedArray.set`: copy `chunk` into `buf` at `off` (callers establish
`off + chunk.length ≤ buf.length`). -/
def writeAt (buf : List Nat) (off : Nat) (chunk : List Nat) : List Nat :=
  buf.take off ++ chunk ++ buf.drop (off + chunk.length)

/-- The read loop of `streamToArrayBuffer`: `none` models the `RangeError`
thrown by `set` when a chunk overruns the buffer. -/
def streamLoop : List (List Nat) → List Nat → Nat → Option (List Nat)
  | [], buf, _ => some buf
  | ch :: rest, buf, off =>
    if off + ch.length ≤ buf.length then streamLoop rest (writeAt buf off ch) (off + ch.length)
    else none

/-- `streamToArrayBuffer` over the list of chunks the stream delivers. -/
def streamToArrayBuffer (chunks : List (List Nat)) (streamSize : Nat) : Option (List Nat) :=
  streamLoop chunks (List.replicate streamSize 0) 0

/-- Total number of bytes delivered by the stream. -/
def sumLens (chunks : List (List Nat)) : Nat := (chunks.map List.length).sum

/-! ## Statement-support definitions -/

/-- A line that does not end the header section. -/
def nonBlank (l : Str) : Bool := !(jsTrim l).isEmpty

/-- The header-section lines of a raw text: the lines before the first blank
line. -/
def headerLines (text : Str) : List Str := (splitLinesNL text).takeWhile nonBlank

/-- The (name, value) pairs of a header sequence. -/
def headerPairs (hs : List Header) : List (Str × Str) :=
  hs.map (fun h => (h.name, h.value))

/-- The header one colon-containing, non-continuation line yields (none when
the name trims to nothing, in which case the worker drops it). -/
def lineHdr (l : Str) : Option Header :=
  match splitAtFirst ':' l with
  | some (pre, post) =>
    if jsTrim pre = [] then none else some (mkHeader (jsTrim pre) (jsTrim post))
  | none => none

/-! ## Stream lemmas and claim C10 -/

theorem writeAt_split (A ch : List Nat) (k : Nat) (h : ch.length ≤ k) :
    writeAt (A ++ List.replicate k 0) A.length ch
      = (A ++ ch) ++ List.replicate (k - ch.length) 0 := by
  have hk : List.replicate k (0 : Nat)
      = List.replicate ch.length 0 ++ List.replicate (k - ch.length) 0 := by
    rw [← List.replicate_add]
    congr 1
    omega
  unfold writeAt
  rw [hk, List.take_left, ← List.append_assoc, List.drop_left']
  simp

theorem streamLoop_split (chunks : List (List Nat)) :
    ∀ (A : List Nat) (k : Nat),
      streamLoop chunks (A ++ List.replicate k 0) A.length
        = if sumLens chunks ≤ k then
            some (A ++ chunks.flatten ++ List.replicate (k - sumLens chunks) 0)
          else none := by
  induction chunks with
  | nil =>
    intro A k
    simp [streamLoop, sumLens]
  | cons ch rest ih =>
    intro A k
    have hlen : (A ++ List.replicate k (0 : Nat)).length = A.length + k := by simp
    by_cases h : ch.length ≤ k
    · have hcond : A.length + ch.length ≤ (A ++ List.replicate k (0 : Nat)).length := by
        rw [hlen]; omega
      rw [streamLoop, if_pos hcond, writeAt_split A ch k h]
      have := ih (A ++ ch) (k - ch.length)
      rw [List.length_append] at this
      rw [this]
      by_cases hs : sumLens rest ≤ k - ch.length
      · rw [if_pos hs, if_pos (by simp [sumLens] at hs ⊢; omega)]
        simp [sumLens, List.append_assoc, Nat.sub_sub]
      · rw [if_neg hs, if_neg (by simp [sumLens] at hs ⊢; omega)]
    · have hcond : ¬ A.length + ch.length ≤ (A ++ List.replicate k (0 : Nat)).length := by
        rw [hlen]; omega
      rw [streamLoop, if_neg hcond, if_neg (by simp [sumLens]; omega)]

/-- Claim C10: `streamToArrayBuffer` returns a buffer of exactly the declared
size: when the stream delivers at most the declared number of bytes the
result is the delivered bytes followed by zero padding, and when it delivers
more the copy into the fixed-size buffer faults (never returning a value). -/
theorem c10_stream_padding (chunks : List (List Nat)) (size : Nat) :
    (sumLens chunks ≤ size →
      streamToArrayBuffer chunks size
          = some (chunks.flatten ++ List.replicate (size - sumLens chunks) 0)
        ∧ (chunks.flatten ++ List.replicate (size - sumLens chunks) 0).length = size)
    ∧ (size < sumLens chunks → streamToArrayBuffer chunks size = none) := by
  have base := streamLoop_split chunks [] size
  simp only [List.nil_append, List.length_nil] at base
  constructor
  · intro h
    constructor
    · rw [streamToArrayBuffer, base, if_pos h]
    · have : chunks.flatten.length = sumLens chunks := by
        simp [sumLens, List.length_flatten]
      simp [this]
      omega
  · intro h
    rw [streamToArrayBuffer, base, if_neg (by omega)]

/-- Witness for C10 at concrete streams: a short stream is zero padded, an
overlong stream faults. -/
theorem c10_witness :
    streamToArrayBuffer [[1, 2], [3]] 5 = some [1, 2, 3, 0, 0]
    ∧ streamToArrayBuffer [[1, 2], [3, 4]] 3 = none := by
  have h1 := (c10_stream_padding [[1, 2], [3]] 5).1 (by decide)
  have h2 := (c10_stream_padding [[1, 2], [3, 4]] 3).2 (by decide)
  refine ⟨?_, h2⟩
  rw [h1.1]
  rfl

/-! ## Pipeline lemmas and claim C1 -/

theorem runPipeline_reject (pre : List StageOutcome) (r : ProcessingResult)
    (post : List StageOutcome) (hpre : ∀ s ∈ pre, stageContinues s = true)
    (hr : r.canContinue = false) :
    runPipeline (pre ++ .ret r :: post) = .rejected (appliedReason r) := by
  induction pre with
  | nil => simp [runPipeline, hr]
  | cons s pre ih =>
    have hs := hpre s (by simp)
    have hrest : ∀ t ∈ pre, stageContinues t = true := fun t ht => hpre t (by simp [ht])
    cases s with
    | threw => simpa [runPipeline] using ih hrest
    | ret r' =>
      have : r'.canContinue = true := hs
      simpa [runPipeline, this] using ih hrest

theorem runPipeline_threw (pre post : List StageOutcome) :
    runPipeline (pre ++ .threw :: post) = runPipeline (pre ++ post) := by
  induction pre with
  | nil => simp [runPipeline]
  | cons s pre ih =>
    cases s with
    | threw => simpa [runPipeline] using ih
    | ret r' =>
      by_cases h : r'.canContinue
      · simpa [runPipeline, h] using ih
      · simp [runPipeline, h]

theorem runPipeline_completed (stages : List StageOutcome)
    (h : ∀ s ∈ stages, stageContinues s = true) : runPipeline stages = .completed := by
  induction stages with
  | nil => rfl
  | cons s rest ih =>
    have hs := h s (by simp)
    have hrest : ∀ t ∈ rest, stageContinues t = true := fun t ht => h t (by simp [ht])
    cases s with
    | threw => simpa [runPipeline] using ih hrest
    | ret r' =>
      have : r'.canContinue = true := hs
      simpa [runPipeline, this] using ih hrest

/-- Claim C1 (amended): processors run strictly in order; the first processor
returning a non-continuable result terminates the run with that processor's
reason — except that a missing reason or an empty-string reason falls back to
the default generic reason — and no later stage influences the verdict; a
processor that throws is skipped exactly as if it had returned continue; a
run whose stages all continue (or throw) completes. -/
theorem c1_pipeline_amended :
    (∀ (pre : List StageOutcome) (r : ProcessingResult) (post : List StageOutcome),
        (∀ s ∈ pre, stageContinues s = true) → r.canContinue = false →
        runPipeline (pre ++ .ret r :: post) = .rejected (appliedReason r))
    ∧ (∀ pre post : List StageOutcome,
        runPipeline (pre ++ .threw :: post) = runPipeline (pre ++ post))
    ∧ (∀ stages : List StageOutcome,
        (∀ s ∈ stages, stageContinues s = true) → runPipeline stages = .completed)
    ∧ (∀ s : Str, s ≠ [] → appliedReason ⟨false, some s⟩ = s)
    ∧ appliedReason ⟨false, none⟩ = defaultRejectReason
    ∧ appliedReason ⟨false, some []⟩ = defaultRejectReason := by
  refine ⟨runPipeline_reject, runPipeline_threw, runPipeline_completed, ?_, rfl, rfl⟩
  intro s hs
  simp [appliedReason, hs]

/-- Counterexample for C1 as stated: a processor that rejects giving the
empty string as its reason is reported with the default generic reason, not
with its own (empty) reason. -/
theorem c1_counterexample :
    runPipeline [.ret ⟨false, some []⟩]
        = .rejected (str "Message rejected by processor.")
    ∧ ¬(str "Message rejected by processor." = ([] : Str)) := by
  exact ⟨rfl, by decide⟩

/-- Witness for C1 at a concrete pipeline: a throwing first stage is skipped
and the rejecting second stage ends the run with its reason. -/
theorem c1_witness :
    runPipeline [.threw, .ret ⟨false, some (str "bad")⟩, .ret ⟨true, none⟩]
        = .rejected (str "bad")
    ∧ runPipeline [.ret ⟨true, none⟩, .threw] = .completed := by
  have h := c1_pipeline_amended
  constructor
  · have h1 := h.1 [.threw] ⟨false, some (str "bad")⟩ [.ret ⟨true, none⟩]
      (by decide) rfl
    have h2 := h.2.2.2.1 (str "bad") (by decide)
    rw [List.singleton_append] at h1
    rw [h1, h2]
  · exact h.2.2.1 [.ret ⟨true, none⟩, .threw] (by decide)

/-! ## Spam predicate: claim C4 -/

/-- Counterexample for C4 as stated: with the From header exactly
`"XyZaBcDe" <xyzabcde@gmail.com>` the extracted display name keeps its
surrounding double quotes, fails the unbroken-alphanumeric-run test, and the
message continues (with an empty subject) instead of being rejected. -/
theorem c4_counterexample :
    spamCheck (str "\"XyZaBcDe\" <xyzabcde@gmail.com>") (str "") = contRes
    ∧ contRes.canContinue = true := by
  exact ⟨rfl, rfl⟩

/-- Claim C4 (amended): with the unquoted From header
`XyZaBcDe <xyzabcde@gmail.com>` the display name is an unbroken alphanumeric
run of 8 letters split 50/50 between cases, so the spam predicate rejects
with the name-pattern reason regardless of the Subject content.  (The quoted
form of the claim is refuted by `c4_counterexample`: the quotes make the
extracted name fail the alphanumeric test.) -/
theorem c4_name_pattern_amended (subject : Str) :
    spamCheck (str "XyZaBcDe <xyzabcde@gmail.com>") subject
      = ⟨false, some (str "Sender name resembles spam pattern.")⟩ := rfl

/-! ## Subaddressing touches every To header: claim C3 -/

/-- Claim C3 is a code bug: the worker's own documentation says only the
first To header is modified, but the header map rewrites every To header —
here the second To header has its tag stripped and its raw form regenerated
as well. -/
theorem c3_second_to_header_rewritten :
    processSubaddressing
        [⟨str "To: a+x@b.com", str "To", str "a+x@b.com"⟩,
         ⟨str "To: c+y@d.com", str "To", str "c+y@d.com"⟩]
      = (str "x",
         [⟨str "To: a@b.com", str "To", str "a@b.com"⟩,
          ⟨str "To: c@d.com", str "To", str "c@d.com"⟩])
    ∧ ¬((⟨str "To: c@d.com", str "To", str "c@d.com"⟩ : Header)
        = ⟨str "To: c+y@d.com", str "To", str "c+y@d.com"⟩) := by
  exact ⟨rfl, by decide⟩

/-! ## RPC response classification: claim C2 -/

/-- Claim C2: the response classifier checks, in order: non-success HTTP
status (before any body inspection); a fault indicator, whose extracted
payload is translated to the mailbox-not-found reason exactly when it
contains the known no-route substring and surfaced inside the CRM error
otherwise; an integer result, succeeding iff positive; a boolean result,
succeeding iff the digit is not 0; otherwise the unexpected-format reason. -/
theorem c2_validateResponse_classification :
    (∀ status data : Str,
        validateResponse false status data = .error (str "HTTP Error: " ++ status))
    ∧ (∀ status data : Str, containsSubstr data (str "<fault>") = true →
        validateResponse true status data
          = .error
              (if containsSubstr (extractFaultString data)
                   (str "ValueError: No possible route found for incoming message")
               then str "Mailbox not found or no valid route. Please check the mail alias or CRM configuration."
               else str "CRM Error: " ++ extractFaultString data))
    ∧ (∀ (status data digits : Str), containsSubstr data (str "<fault>") = false →
        scanInt data = some digits →
        (validateResponse true status data = .ok () ↔ 0 < digitsToNat digits)
        ∧ (digitsToNat digits = 0 →
            validateResponse true status data
              = .error (str "Invalid record ID received from CRM.")))
    ∧ (∀ (status data : Str) (d : Char), containsSubstr data (str "<fault>") = false →
        scanInt data = none → scanBool data = some d →
        (validateResponse true status data = .ok () ↔ ¬(d = '0'))
        ∧ (d = '0' →
            validateResponse true status data = .error (str "Email rejected by CRM.")))
    ∧ (∀ status data : Str, containsSubstr data (str "<fault>") = false →
        scanInt data = none → scanBool data = none →
        validateResponse true status data
          = .error (str "Unexpected response format from CRM.")) := by
  refine ⟨fun status data => rfl, ?_, ?_, ?_, ?_⟩
  · intro status data hf
    simp only [validateResponse, Bool.not_true, Bool.false_eq_true, if_false, hf, if_true]
    split <;> rfl
  · intro status data digits hf hint
    simp only [validateResponse, Bool.not_true, Bool.false_eq_true, if_false, hf, hint]
    constructor
    · constructor
      · intro h
        by_contra hz
        simp [Nat.pos_iff_ne_zero] at hz
        simp [hz] at h
      · intro h
        simp [Nat.pos_iff_ne_zero] at h
        simp [h, Nat.pos_iff_ne_zero]
    · intro hz
      simp [hz]
  · intro status data d hf hint hbool
    simp only [validateResponse, Bool.not_true, Bool.false_eq_true, if_false, hf, hint, hbool]
    constructor
    · constructor
      · intro h hEq
        rw [hEq] at h
        simp at h
      · intro h
        simp [h]
    · intro hz
      simp [hz]
  · intro status data hf hint hbool
    simp [validateResponse, hf, hint, hbool]

/-- Witness for C2 at concrete responses: a failed HTTP status wins over the
body, a positive integer result succeeds, and a no-route fault is translated
to the mailbox reason. -/
theorem c2_witness :
    validateResponse false (str "500 Server Error") (str "<int>1</int>")
        = .error (str "HTTP Error: 500 Server Error")
    ∧ validateResponse true (str "200 OK") (str "<int> 3 </int>") = .ok ()
    ∧ validateResponse true (str "200 OK")
        (str "<fault><name>faultString</name><value><string>ValueError: No possible route found for incoming message</string></value></fault>")
        = .error (str "Mailbox not found or no valid route. Please check the mail alias or CRM configuration.") := by
  have h := c2_validateResponse_classification
  refine ⟨h.1 (str "500 Server Error") (str "<int>1</int>"), ?_, ?_⟩
  · have h3 := h.2.2.1 (str "200 OK") (str "<int> 3 </int>") (str "3") (by decide) (by decide)
    exact h3.1.mpr (by decide)
  · have h2 := h.2.1 (str "200 OK")
      (str "<fault><name>faultString</name><value><string>ValueError: No possible route found for incoming message</string></value></fault>")
      (by decide)
    rw [h2]
    rfl

/-! ## Domain collapse configuration: claim C9 -/

theorem jsToLower_idem (c : Char) : jsToLower (jsToLower c) = jsToLower c := by
  by_cases h : c ∈ upperChars
  · fin_cases h <;> rfl
  · have hc : jsToLower c = c := by rw [jsToLower, if_neg h]
    rw [hc]
    exact hc

theorem toLowerList_idem (s : Str) : toLowerList (toLowerList s) = toLowerList s := by
  induction s with
  | nil => rfl
  | cons c cs ih =>
    simp only [toLowerList, List.map_cons] at ih ⊢
    rw [jsToLower_idem, ih]

theorem mem_mapInsert (m : List (Str × Str)) (k v a b : Str)
    (h : (a, b) ∈ mapInsert m k v) : a = k ∨ (a, b) ∈ m := by
  unfold mapInsert at h
  split at h
  · obtain ⟨p, hp, heq⟩ := List.mem_map.mp h
    split at heq
    · left
      exact (Prod.mk.injEq _ _ _ _ ▸ heq.symm).1.symm ▸ rfl
    · right
      exact heq ▸ hp
  · rcases List.mem_append.mp h with h1 | h1
    · right; exact h1
    · left
      simp at h1
      exact h1.1

theorem dcEntryStep_keys_lower (m : List (Str × Str)) (e : Str)
    (hm : ∀ k v, (k, v) ∈ m → toLowerList k = k) :
    ∀ k v, (k, v) ∈ dcEntryStep m e → toLowerList k = k := by
  intro k v hk
  unfold dcEntryStep at hk
  split at hk
  · exact hm k v hk
  · split at hk
    · rcases mem_mapInsert _ _ _ _ _ hk with h1 | h1
      · subst h1
        exact toLowerList_idem _
      · exact hm k v h1
    · exact hm k v hk

theorem dcFold_keys_lower (entries : List Str) :
    ∀ m, (∀ k v, (k, v) ∈ m → toLowerList k = k) →
      ∀ k v, (k, v) ∈ entries.foldl dcEntryStep m → toLowerList k = k := by
  induction entries with
  | nil => intro m hm; exact hm
  | cons e rest ih =>
    intro m hm
    exact ih (dcEntryStep m e) (dcEntryStep_keys_lower m e hm)

/-- Claim C9: configuration parsing lower-cases every domain key and skips
entries without an equals sign; an empty or entirely-malformed configuration
makes the domain-collapse stage a no-op that returns continue with the
parsed message untouched. -/
theorem c9_domain_collapse_config :
    (∀ (s k v : Str), (k, v) ∈ parseDomainCollapseMap s → toLowerList k = k)
    ∧ (∀ (m : List (Str × Str)) (e : Str),
        splitAtFirst '=' e = none → dcEntryStep m e = m)
    ∧ (∀ (cfg : Str) (pe : ParsedEmail), jsTrim cfg = [] →
        domainCollapseProcess cfg pe = (contRes, pe))
    ∧ (∀ (cfg : Str) (pe : ParsedEmail), parseDomainCollapseMap cfg = [] →
        domainCollapseProcess cfg pe = (contRes, pe)) := by
  refine ⟨?_, ?_, ?_, ?_⟩
  · intro s k v h
    exact dcFold_keys_lower (dcEntries s) [] (by intro k v h; simp at h) k v h
  · intro m e h
    unfold dcEntryStep
    rw [h]
  · intro cfg pe h
    unfold domainCollapseProcess
    rw [if_pos h]
  · intro cfg pe h
    unfold domainCollapseProcess
    split
    · rfl
    · rw [if_pos h]

/-- Witness for C9: an upper-cased configured domain is stored lower-cased,
and a separator-only configuration leaves an email untouched and continues. -/
theorem c9_witness :
    toLowerList (str "example.org") = str "example.org"
    ∧ domainCollapseProcess (str ";;;")
        ⟨[⟨str "To: a@b", str "To", str "a@b"⟩], str "x"⟩
      = (contRes, ⟨[⟨str "To: a@b", str "To", str "a@b"⟩], str "x"⟩)
    ∧ (str "example.org", str "x@y") ∈ parseDomainCollapseMap (str "EXample.ORG=x@y") := by
  have h := c9_domain_collapse_config
  refine ⟨?_, ?_, by decide⟩
  · exact h.1 (str "EXample.ORG=x@y") (str "example.org") (str "x@y") (by decide)
  · exact h.2.2.2 (str ";;;") ⟨[⟨str "To: a@b", str "To", str "a@b"⟩], str "x"⟩ (by decide)

/-! ## Domain collapse rewriting: claim C5 -/

/-- Counterexample for C5 as stated: the code computes the domain as the
segment between the first and second at-sign (`split('@')[1]`), not as the
text after the first at-sign.  With the configured key `a@b` and the mailbox
`x@a@b` — whose text after the first at-sign is exactly the key — the claim
demands the mailbox be replaced by `t@x`, but the worker leaves the header
untouched. -/
theorem c5_counterexample :
    mapLookup (parseDomainCollapseMap (str "a@b=t@x")) (str "a@b") = some (str "t@x")
    ∧ splitAtFirst '@' (str "x@a@b") = some (str "x", str "a@b")
    ∧ parseAddress (str "x@a@b") = ([], str "x@a@b")
    ∧ collapseHeader (parseDomainCollapseMap (str "a@b=t@x"))
        ⟨str "To: x@a@b", str "To", str "x@a@b"⟩
      = ⟨str "To: x@a@b", str "To", str "x@a@b"⟩
    ∧ ¬(str "x@a@b" = str "t@x") := by
  refine ⟨rfl, rfl, rfl, rfl, by decide⟩

/-- Claim C5 (amended): for every To/Cc/Bcc header the value is re-rendered
as the rewritten addresses joined with a comma-space and the raw form is
regenerated to match; and every address whose mailbox domain — the segment
between the first and second at-sign, compared case-insensitively — is a
configured key has its entire mailbox replaced by the configured target with
the display name preserved.  In particular `To: Alice <alice@example.org>`
with mapping `example.org=sales@target.test` becomes
`To: "Alice" <sales@target.test>` (see `c5_witness`). -/
theorem c5_domain_collapse_amended :
    (∀ (m : List (Str × Str)) (h : Header),
        (toLowerList h.name = str "to" ∨ toLowerList h.name = str "cc"
          ∨ toLowerList h.name = str "bcc") →
        collapseHeader m h
          = mkHeader h.name
              (List.intercalate (str ", ")
                ((splitAddresses h.value).map (collapseAddrStr m))))
    ∧ (∀ (m : List (Str × Str)) (p t : Str),
        mapLookup m (toLowerList (jsDomainOf (parseAddress p).2)) = some t →
        t ≠ [] →
        collapseAddrStr m p = formatAddress (parseAddress p).1 t) := by
  constructor
  · intro m h hname
    rcases hname with hn | hn | hn <;> simp [collapseHeader, hn]
  · intro m p t h1 h2
    unfold collapseAddrStr
    simp only []
    rw [h1]
    simp [h2]

/-- Witness for C5: the Alice example — the mailbox is collapsed to the
configured target, the display name is kept and re-quoted, and the raw form
is regenerated. -/
theorem c5_witness :
    collapseHeader (parseDomainCollapseMap (str "example.org=sales@target.test"))
        ⟨str "To: Alice <alice@example.org>", str "To", str "Alice <alice@example.org>"⟩
      = ⟨str "To: \"Alice\" <sales@target.test>", str "To",
         str "\"Alice\" <sales@target.test>"⟩
    ∧ collapseAddrStr (parseDomainCollapseMap (str "example.org=sales@target.test"))
        (str "Alice <alice@example.org>")
      = formatAddress (str "Alice") (str "sales@target.test") := by
  have h := c5_domain_collapse_amended
  constructor
  · rw [h.1 (parseDomainCollapseMap (str "example.org=sales@target.test"))
      ⟨str "To: Alice <alice@example.org>", str "To", str "Alice <alice@example.org>"⟩
      (Or.inl (by decide))]
    rfl
  · rw [h.2 (parseDomainCollapseMap (str "example.org=sales@target.test"))
      (str "Alice <alice@example.org>") (str "sales@target.test")
      (by decide) (by decide)]
    rfl

/-! ## Subaddressing idempotence: claim C8 -/

theorem stripPiece_of_nomatch (p : Str) (h : plusMatch (parseAddress p).2 = none) :
    stripPiece p = (none, p) := by
  unfold stripPiece
  simp only []
  rw [h]

theorem subAuxPieces_id (ps : List Str)
    (h : ∀ p ∈ ps, plusMatch (parseAddress p).2 = none) :
    ∀ tag, subAuxPieces ps tag = (tag, ps) := by
  induction ps with
  | nil => intro tag; rfl
  | cons p rest ih =>
    intro tag
    have hp := stripPiece_of_nomatch p (h p (by simp))
    have hrest := ih (fun q hq => h q (by simp [hq]))
    rw [subAuxPieces, hp, hrest]

theorem subHeader_id (h : Header) (tag : Str)
    (hmatch : ∀ p ∈ splitAddresses h.value, plusMatch (parseAddress p).2 = none)
    (hjoin : List.intercalate (str ", ") (splitAddresses h.value) = h.value)
    (hraw : h.raw = h.name ++ ':' :: ' ' :: h.value) :
    subHeader h tag = (tag, h) := by
  unfold subHeader
  split
  · rw [subAuxPieces_id (splitAddresses h.value) hmatch tag]
    simp only [hjoin]
    rw [mkHeader, ← hraw]
  · rfl

/-- Claim C8 (amended): re-running subaddress stripping is a no-op — every
header's name, value and raw form is unchanged and no tag is captured —
provided every To header's value re-splits into addresses that re-join to
the same value, none of which still matches the `local+tag@domain` pattern,
and carries the regenerated raw form; the first application guarantees these
for ordinary address lists, but not always (see `c8_counterexample`). -/
theorem c8_subaddressing_idem_amended (hs : List Header)
    (hcond : ∀ h ∈ hs, toLowerList h.name = str "to" →
      (∀ p ∈ splitAddresses h.value, plusMatch (parseAddress p).2 = none)
      ∧ List.intercalate (str ", ") (splitAddresses h.value) = h.value
      ∧ h.raw = h.name ++ ':' :: ' ' :: h.value) :
    processSubaddressing hs = ([], hs) := by
  unfold processSubaddressing
  suffices hgen : ∀ tag, subLoop hs tag = (tag, hs) from hgen []
  induction hs with
  | nil => intro tag; rfl
  | cons h rest ih =>
    intro tag
    have hstep : subHeader h tag = (tag, h) := by
      by_cases hto : toLowerList h.name = str "to"
      · obtain ⟨h1, h2, h3⟩ := hcond h (by simp) hto
        exact subHeader_id h tag h1 h2 h3
      · unfold subHeader
        rw [if_neg hto]
    have hrest := ih (fun g hg => hcond g (by simp [hg])) tag
    rw [subLoop, hstep, hrest]

/-- Counterexample for C8 as stated: the To header value `a,,` is stripped
to `a, ` by a first application, after which no mailbox matches the
`local+tag@domain` pattern — yet a second application changes the value to
`a` (the re-split drops the trailing empty address), so the second run is
not a no-op. -/
theorem c8_counterexample :
    processSubaddressing [⟨str "To: a,,", str "To", str "a,,"⟩]
      = ([], [⟨str "To: a, ", str "To", str "a, "⟩])
    ∧ (∀ p ∈ splitAddresses (str "a, "), plusMatch (parseAddress p).2 = none)
    ∧ processSubaddressing [⟨str "To: a, ", str "To", str "a, "⟩]
      = ([], [⟨str "To: a", str "To", str "a"⟩])
    ∧ ¬((⟨str "To: a", str "To", str "a"⟩ : Header)
        = ⟨str "To: a, ", str "To", str "a, "⟩) := by
  refine ⟨rfl, by decide, rfl, by decide⟩

/-- Witness for C8: the output of stripping `To: bob+news@example.com`
satisfies the provisos, so a second application leaves it unchanged and
captures no tag. -/
theorem c8_witness :
    processSubaddressing [⟨str "To: bob@example.com", str "To", str "bob@example.com"⟩]
      = ([], [⟨str "To: bob@example.com", str "To", str "bob@example.com"⟩]) := by
  exact c8_subaddressing_idem_amended
    [⟨str "To: bob@example.com", str "To", str "bob@example.com"⟩] (by decide)

/-! ## Parser lemmas: claim C6 -/

theorem splitAtFirst_append (c : Char) (pre post : Str) (h : c ∉ pre) :
    splitAtFirst c (pre ++ c :: post) = some (pre, post) := by
  induction pre with
  | nil => simp [splitAtFirst]
  | cons a pre ih =>
    have ha : ¬(a = c) := by intro hac; exact h (by simp [hac])
    have hpre : c ∉ pre := fun hc => h (by simp [hc])
    simp [splitAtFirst, ha, ih hpre]

theorem splitAtFirst_eq_none (c : Char) (l : Str) (h : c ∉ l) :
    splitAtFirst c l = none := by
  induction l with
  | nil => rfl
  | cons a t ih =>
    have ha : ¬(a = c) := by intro hac; exact h (by simp [hac])
    have ht : c ∉ t := fun hc => h (by simp [hc])
    simp [splitAtFirst, ha, ih ht]

theorem parseLoop_cont (l : Str) (rest : List Str) (n v : Str)
    (h1 : jsTrim l ≠ []) (h2 : isContStart l = true) :
    parseLoop (l :: rest) n v = parseLoop rest n (v ++ ' ' :: jsTrim l) := by
  simp [parseLoop, h1, h2]

theorem parseLoop_colon (pre post : Str) (rest : List Str) (n v : Str)
    (h1 : jsTrim (pre ++ ':' :: post) ≠ [])
    (h2 : isContStart (pre ++ ':' :: post) = false) (h3 : ':' ∉ pre) :
    parseLoop ((pre ++ ':' :: post) :: rest) n v
      = (flushHeader n v ++ (parseLoop rest (jsTrim pre) (jsTrim post)).1,
         (parseLoop rest (jsTrim pre) (jsTrim post)).2) := by
  simp [parseLoop, h1, h2, splitAtFirst_append ':' pre post h3]

theorem parseLoop_nocolon (l : Str) (rest : List Str) (n v : Str)
    (h1 : jsTrim l ≠ []) (h2 : isContStart l = false) (h3 : ':' ∉ l) :
    parseLoop (l :: rest) n v
      = (flushHeader n v ++ (parseLoop rest (jsTrim l) []).1,
         (parseLoop rest (jsTrim l) []).2) := by
  simp [parseLoop, h1, h2, splitAtFirst_eq_none ':' l h3]

theorem parseLoop_headers_takeWhile (lines : List Str) :
    ∀ n v, (parseLoop lines n v).1 = (parseLoop (lines.takeWhile nonBlank) n v).1 := by
  induction lines with
  | nil => intro n v; rfl
  | cons l rest ih =>
    intro n v
    by_cases hb : jsTrim l = []
    · have hnb : nonBlank l = false := by simp [nonBlank, hb]
      simp [parseLoop, hb, List.takeWhile_cons, hnb]
    · have hnb : nonBlank l = true := by simp [nonBlank, hb]
      have htw : List.takeWhile nonBlank (l :: rest) = l :: List.takeWhile nonBlank rest := by
        simp [List.takeWhile_cons, hnb]
      rw [htw]
      by_cases hc : isContStart l
      · rw [parseLoop_cont l rest n v hb hc, parseLoop_cont l _ n v hb hc, ih]
      · cases hsp : splitAtFirst ':' l with
        | some pq => simp [parseLoop, hb, hc, hsp, ih]
        | none => simp [parseLoop, hb, hc, hsp, ih]

/-- Claim C6: parsing is total; the parsed headers are determined by the
lines before the first blank line; a header-section line beginning with
whitespace appends its trimmed text, separated by one space, to the value of
the header being accumulated; any other line is split at its first colon
into trimmed name and trimmed value; and a colon-less line becomes a header
whose name is the whole trimmed line with an empty value. -/
theorem c6_parser_behaviour :
    (∀ text : Str, (parseEmail text).headers = (parseLoop (headerLines text) [] []).1)
    ∧ (∀ (l : Str) (rest : List Str) (n v : Str),
        jsTrim l ≠ [] → isContStart l = true →
        parseLoop (l :: rest) n v = parseLoop rest n (v ++ ' ' :: jsTrim l))
    ∧ (∀ (pre post : Str) (rest : List Str) (n v : Str),
        jsTrim (pre ++ ':' :: post) ≠ [] → isContStart (pre ++ ':' :: post) = false →
        ':' ∉ pre →
        parseLoop ((pre ++ ':' :: post) :: rest) n v
          = (flushHeader n v ++ (parseLoop rest (jsTrim pre) (jsTrim post)).1,
             (parseLoop rest (jsTrim pre) (jsTrim post)).2))
    ∧ (∀ (l : Str) (rest : List Str) (n v : Str),
        jsTrim l ≠ [] → isContStart l = false → ':' ∉ l →
        parseLoop (l :: rest) n v
          = (flushHeader n v ++ (parseLoop rest (jsTrim l) []).1,
             (parseLoop rest (jsTrim l) []).2)) := by
  refine ⟨?_, parseLoop_cont, parseLoop_colon, parseLoop_nocolon⟩
  intro text
  unfold parseEmail headerLines
  exact parseLoop_headers_takeWhile (splitLinesNL text) [] []

/-- Witness for C6 at concrete inputs: the headers stop at the blank line, a
continuation line extends the current value, a colon line splits into
trimmed name and value, and a colon-less line becomes a name with empty
value. -/
theorem c6_witness :
    (parseEmail (str "A: 1\nbad line\n\nbody")).headers
        = (parseLoop [str "A: 1", str "bad line"] [] []).1
    ∧ parseLoop [str " cont"] (str "A") (str "1") = parseLoop [] (str "A") (str "1 cont")
    ∧ parseLoop [str "Name" ++ ':' :: str "  val "] [] []
        = ([mkHeader (str "Name") (str "val")], [])
    ∧ parseLoop [str "bad line"] (str "A") (str "1")
        = ([mkHeader (str "A") (str "1"), mkHeader (str "bad line") []], []) := by
  have h := c6_parser_behaviour
  refine ⟨?_, ?_, ?_, ?_⟩
  · rw [h.1 (str "A: 1\nbad line\n\nbody")]
    rfl
  · rw [h.2.1 (str " cont") [] (str "A") (str "1") (by decide) (by decide)]
    rfl
  · rw [h.2.2.1 (str "Name") (str "  val ") [] [] [] (by decide) (by decide) (by decide)]
    rfl
  · rw [h.2.2.2 (str "bad line") [] (str "A") (str "1") (by decide) (by decide) (by decide)]
    rfl

/-! ## Trim infrastructure for the round-trip claim -/

theorem trimRight_eq_rdropWhile (s : Str) : trimRight s = s.rdropWhile isJsWs := rfl

theorem length_dropWhile_le (p : Char → Bool) (l : Str) :
    (l.dropWhile p).length ≤ l.length := by
  induction l with
  | nil => simp
  | cons a t ih =>
    by_cases h : p a
    · rw [List.dropWhile_cons_of_pos h]
      exact Nat.le_succ_of_le ih
    · rw [List.dropWhile_cons_of_neg h]

theorem length_trimLeft_le (l : Str) : (trimLeft l).length ≤ l.length :=
  length_dropWhile_le isJsWs l

theorem length_trimRight_le (l : Str) : (trimRight l).length ≤ l.length := by
  unfold trimRight
  rw [List.length_reverse]
  calc (l.reverse.dropWhile isJsWs).length ≤ l.reverse.length :=
        length_dropWhile_le isJsWs l.reverse
    _ = l.length := List.length_reverse l

theorem dropWhile_eq_self_of_prefix (p : Char → Bool) (z y : Str) (hpre : z <+: y)
    (hy : y.dropWhile p = y) : z.dropWhile p = z := by
  cases z with
  | nil => rfl
  | cons a t =>
    obtain ⟨r, hr⟩ := hpre
    have hpa : p a = false := by
      by_contra hpa
      simp only [Bool.not_eq_false] at hpa
      rw [← hr, List.cons_append, List.dropWhile_cons_of_pos hpa] at hy
      have hlen := congrArg List.length hy
      have hle := length_dropWhile_le p (t ++ r)
      simp [List.length_append] at hlen hle
      omega
    exact List.dropWhile_cons_of_neg (by simp [hpa])

theorem trimLeft_jsTrim (l : Str) : trimLeft (jsTrim l) = jsTrim l := by
  unfold jsTrim
  apply dropWhile_eq_self_of_prefix isJsWs _ (trimLeft l)
  · rw [trimRight_eq_rdropWhile]
    exact List.rdropWhile_prefix _ _
  · exact List.dropWhile_idempotent _ _

theorem jsTrim_idem (l : Str) : jsTrim (jsTrim l) = jsTrim l := by
  have h1 : trimLeft (jsTrim l) = jsTrim l := trimLeft_jsTrim l
  show trimRight (trimLeft (jsTrim l)) = jsTrim l
  rw [h1]
  show trimRight (trimRight (trimLeft l)) = trimRight (trimLeft l)
  rw [trimRight_eq_rdropWhile, trimRight_eq_rdropWhile]
  exact List.rdropWhile_idempotent _ _

theorem mem_dropWhile (p : Char → Bool) (a : Char) (l : Str)
    (h : a ∈ l.dropWhile p) : a ∈ l := by
  induction l with
  | nil => simp at h
  | cons b t ih =>
    by_cases hb : p b
    · rw [List.dropWhile_cons_of_pos hb] at h
      exact List.mem_cons_of_mem b (ih h)
    · rwa [List.dropWhile_cons_of_neg hb] at h

theorem mem_jsTrim (a : Char) (l : Str) (h : a ∈ jsTrim l) : a ∈ l := by
  have h1 : a ∈ trimLeft l := by
    have h2 : a ∈ (trimLeft l).reverse.dropWhile isJsWs := by
      have := h
      unfold jsTrim trimRight at this
      rwa [List.mem_reverse] at this
    rw [← List.mem_reverse]
    exact mem_dropWhile _ _ _ h2
  exact mem_dropWhile _ _ _ h1

theorem jsTrim_eq_nil_all (l : Str) (h : jsTrim l = []) :
    ∀ a ∈ l, isJsWs a = true := by
  intro a ha
  have h2 : ∀ x ∈ trimLeft l, isJsWs x = true := by
    have := h
    unfold jsTrim at this
    rw [trimRight_eq_rdropWhile, List.rdropWhile_eq_nil_iff] at this
    exact this
  rcases List.mem_append.mp
      ((List.takeWhile_append_dropWhile isJsWs l).symm ▸ ha) with hm | hm
  · exact List.mem_takeWhile_imp hm
  · exact h2 a hm

theorem jsTrim_ne_nil_of_mem (a : Char) (l : Str) (ha : a ∈ l)
    (hns : isJsWs a = false) : jsTrim l ≠ [] := by
  intro h
  rw [jsTrim_eq_nil_all l h a ha] at hns
  exact Bool.noConfusion hns

theorem head_not_ws_of_trim_fix (c : Char) (cs : Str)
    (h : jsTrim (c :: cs) = c :: cs) : isJsWs c = false := by
  by_contra hws
  simp only [Bool.not_eq_false] at hws
  have h1 : jsTrim (c :: cs) = trimRight (trimLeft cs) := by
    unfold jsTrim trimLeft
    rw [List.dropWhile_cons_of_pos hws]
  have hlen : (jsTrim (c :: cs)).length ≤ cs.length := by
    rw [h1]
    calc (trimRight (trimLeft cs)).length ≤ (trimLeft cs).length :=
          length_trimRight_le _
      _ ≤ cs.length := length_trimLeft_le _
  rw [h] at hlen
  simp at hlen

theorem jsTrim_cons_space (v : Str) : jsTrim (' ' :: v) = jsTrim v := by
  unfold jsTrim trimLeft
  rw [List.dropWhile_cons_of_pos (by rfl)]

/-! ## Round-trip lemmas: claim C7 -/

theorem splitAtFirst_spec (c : Char) (l : Str) :
    ∀ pre post, splitAtFirst c l = some (pre, post) →
      l = pre ++ c :: post ∧ c ∉ pre := by
  induction l with
  | nil => intro pre post h; exact Option.noConfusion h
  | cons a t ih =>
    intro pre post h
    rw [splitAtFirst] at h
    by_cases ha : a = c
    · rw [if_pos ha] at h
      obtain ⟨h1, h2⟩ := Prod.mk.injEq _ _ _ _ ▸ Option.some.injEq _ _ ▸ h
      subst ha
      constructor
      · rw [← h1, ← h2]; rfl
      · rw [← h1]; simp
    · rw [if_neg ha] at h
      cases hs : splitAtFirst c t with
      | none => rw [hs] at h; simp at h
      | some pq =>
        rw [hs] at h
        have h' : (a :: pq.1, pq.2) = (pre, post) := Option.some.inj h
        obtain ⟨hp, hq⟩ := Prod.mk.injEq _ _ _ _ ▸ h'
        obtain ⟨ht, hnp⟩ := ih pq.1 pq.2 (by rw [hs])
        constructor
        · rw [← hp, ← hq]
          simp [List.cons_append, ← ht]
        · rw [← hp]
          intro hc
          rcases List.mem_cons.mp hc with h1 | h1
          · exact ha h1.symm
          · exact hnp h1

theorem splitAtFirst_mem (c : Char) (l : Str) (h : c ∈ l) :
    ∃ pre post, splitAtFirst c l = some (pre, post) := by
  induction l with
  | nil => simp at h
  | cons a t ih =>
    by_cases ha : a = c
    · exact ⟨[], t, by rw [splitAtFirst, if_pos ha]⟩
    · have ht : c ∈ t := by
        rcases List.mem_cons.mp h with h1 | h1
        · exact absurd h1.symm ha
        · exact h1
      obtain ⟨pre, post, hs⟩ := ih ht
      exact ⟨a :: pre, post, by rw [splitAtFirst, if_neg ha, hs]; rfl⟩

theorem mem_splitOnChar_not (c : Char) (s : Str) :
    ∀ l ∈ splitOnChar c s, c ∉ l := by
  induction s with
  | nil =>
    intro l hl
    simp [splitOnChar] at hl
    simp [hl]
  | cons a t ih =>
    intro l hl
    rw [splitOnChar] at hl
    by_cases ha : a = c
    · rw [if_pos ha] at hl
      rcases List.mem_cons.mp hl with h1 | h1
      · simp [h1]
      · exact ih l h1
    · rw [if_neg ha] at hl
      cases hs : splitOnChar c t with
      | nil =>
        rw [hs] at hl
        simp at hl
        subst hl
        simp
        exact fun hc => ha hc.symm
      | cons y ys =>
        rw [hs] at hl
        rcases List.mem_cons.mp hl with h1 | h1
        · subst h1
          intro hc
          rcases List.mem_cons.mp hc with h2 | h2
          · exact ha h2.symm
          · exact ih y (by rw [hs]; simp) h2
        · exact ih l (by rw [hs]; simp [h1])

theorem splitOnChar_append_cons (c : Char) (x t : Str) (hx : c ∉ x) :
    splitOnChar c (x ++ c :: t) = x :: splitOnChar c t := by
  induction x with
  | nil => simp [splitOnChar]
  | cons a x' ih =>
    have ha : ¬(a = c) := fun h => hx (by simp [h])
    have hx' : c ∉ x' := fun h => hx (by simp [h])
    rw [List.cons_append, splitOnChar, if_neg ha, ih hx']

theorem normalize_append_crlf (x t : Str) (hx : '\n' ∉ x) :
    normalizeNewlines (x ++ '\r' :: '\n' :: t) = x ++ '\n' :: normalizeNewlines t := by
  induction x with
  | nil => simp [normalizeNewlines]
  | cons a x' ih =>
    have hx' : '\n' ∉ x' := fun h => hx (by simp [h])
    cases x' with
    | nil =>
      show normalizeNewlines (a :: '\r' :: '\n' :: t) = a :: '\n' :: normalizeNewlines t
      rw [normalizeNewlines]
      have : (a = '\r' && '\r' = '\n') = false := by simp
      rw [this]
      simp [normalizeNewlines]
    | cons b x'' =>
      have hb : ¬(b = '\n') := fun h => hx (by simp [h])
      show normalizeNewlines (a :: b :: (x'' ++ '\r' :: '\n' :: t))
          = a :: (b :: x'') ++ '\n' :: normalizeNewlines t
      rw [normalizeNewlines]
      have hcond : (a = '\r' && b = '\n') = false := by
        simp [hb]
      rw [hcond]
      simp only [Bool.false_eq_true, if_false, List.cons_append]
      have ih' := ih hx'
      rw [List.cons_append] at ih'
      rw [ih', List.cons_append]

theorem intercalate_cons_cons (sep x y : Str) (t : List Str) :
    List.intercalate sep (x :: y :: t) = x ++ sep ++ List.intercalate sep (y :: t) := by
  simp [List.intercalate, List.intersperse]

theorem intercalate_singleton (sep x : Str) : List.intercalate sep [x] = x := by
  simp [List.intercalate, List.intersperse]

theorem splitOnChar_cons_self (c : Char) (t : Str) :
    splitOnChar c (c :: t) = [] :: splitOnChar c t := by
  simp [splitOnChar]

theorem ser_lines (H : List Header) (body : Str)
    (hnl : ∀ h ∈ H, '\n' ∉ hline h) (hne : H ≠ []) :
    splitLinesNL (reSerialiseEmail H body)
      = H.map hline ++ [] :: splitOnChar '\n' (normalizeNewlines body) := by
  induction H with
  | nil => exact absurd rfl hne
  | cons h H' ih =>
    have hx : '\n' ∉ hline h := hnl h (by simp)
    cases H' with
    | nil =>
      have hser : reSerialiseEmail [h] body
          = hline h ++ '\r' :: '\n' :: ('\r' :: '\n' :: body) := by
        unfold reSerialiseEmail
        rw [List.map_cons, List.map_nil, intercalate_singleton]
        simp [crlf, List.append_assoc]
      unfold splitLinesNL
      have h0 : normalizeNewlines ('\r' :: '\n' :: body) = '\n' :: normalizeNewlines body := by
        have := normalize_append_crlf [] body (by simp)
        simpa using this
      rw [hser, normalize_append_crlf _ _ hx, h0,
        splitOnChar_append_cons '\n' _ _ hx, splitOnChar_cons_self]
      rfl
    | cons h2 t =>
      have hser : reSerialiseEmail (h :: h2 :: t) body
          = hline h ++ '\r' :: '\n' :: reSerialiseEmail (h2 :: t) body := by
        unfold reSerialiseEmail
        rw [List.map_cons, List.map_cons, intercalate_cons_cons]
        simp [crlf, List.append_assoc]
      unfold splitLinesNL
      rw [hser, normalize_append_crlf _ _ hx, splitOnChar_append_cons '\n' _ _ hx]
      have ih' := ih (fun g hg => hnl g (by simp [hg])) (by simp)
      unfold splitLinesNL at ih'
      rw [ih']
      rfl

theorem parseLoop_colon' (l pre post : Str) (rest : List Str) (n v : Str)
    (h1 : jsTrim l ≠ []) (h2 : isContStart l = false)
    (hsp : splitAtFirst ':' l = some (pre, post)) :
    (parseLoop (l :: rest) n v).1
      = flushHeader n v ++ (parseLoop rest (jsTrim pre) (jsTrim post)).1 := by
  simp [parseLoop, h1, h2, hsp]

theorem parseLoop_filterMap (lines : List Str) :
    ∀ n v, (∀ l ∈ lines, jsTrim l ≠ [] ∧ isContStart l = false ∧ ':' ∈ l) →
      (parseLoop lines n v).1 = flushHeader n v ++ lines.filterMap lineHdr := by
  induction lines with
  | nil => intro n v _; simp [parseLoop]
  | cons l rest ih =>
    intro n v hall
    obtain ⟨h1, h2, h3⟩ := hall l (by simp)
    have hrest : ∀ l' ∈ rest, jsTrim l' ≠ [] ∧ isContStart l' = false ∧ ':' ∈ l' :=
      fun l' hl' => hall l' (by simp [hl'])
    obtain ⟨pre, post, hsp⟩ := splitAtFirst_mem ':' l h3
    rw [parseLoop_colon' l pre post rest n v h1 h2 hsp]
    rw [ih _ _ hrest, List.filterMap_cons]
    by_cases hp : jsTrim pre = []
    · have hl : lineHdr l = none := by simp [lineHdr, hsp, hp]
      rw [hl]
      simp [flushHeader, hp]
    · have hl : lineHdr l = some (mkHeader (jsTrim pre) (jsTrim post)) := by
        simp [lineHdr, hsp, hp]
      rw [hl]
      simp [flushHeader, hp]

theorem lineHdr_props (l : Str) (h : Header) (hl : lineHdr l = some h) :
    h.name ≠ [] ∧ jsTrim h.name = h.name ∧ jsTrim h.value = h.value ∧ ':' ∉ h.name
      ∧ (∀ a ∈ h.name, a ∈ l) ∧ (∀ a ∈ h.value, a ∈ l) := by
  cases hsp : splitAtFirst ':' l with
  | none => rw [lineHdr, hsp] at hl; exact Option.noConfusion hl
  | some pq =>
    obtain ⟨pre, post⟩ := pq
    rw [lineHdr, hsp] at hl
    dsimp only at hl
    by_cases hp : jsTrim pre = []
    · rw [if_pos hp] at hl; exact Option.noConfusion hl
    · rw [if_neg hp] at hl
      have hh := Option.some.inj hl
      obtain ⟨hsplit, hnp⟩ := splitAtFirst_spec ':' l pre post hsp
      rw [← hh]
      refine ⟨hp, jsTrim_idem pre, jsTrim_idem post, ?_, ?_, ?_⟩
      · exact fun hc => hnp (mem_jsTrim ':' pre hc)
      · intro a ha
        rw [hsplit]
        exact List.mem_append.mpr (Or.inl (mem_jsTrim a pre ha))
      · intro a ha
        rw [hsplit]
        exact List.mem_append.mpr (Or.inr (List.mem_cons_of_mem ':' (mem_jsTrim a post ha)))

theorem parseLoop_hlines (H : List Header) (bl : List Str) :
    ∀ n v, (∀ h ∈ H,
        h.name ≠ [] ∧ jsTrim h.name = h.name ∧ jsTrim h.value = h.value ∧ ':' ∉ h.name) →
      parseLoop (H.map hline ++ [] :: bl) n v
        = (flushHeader n v ++ H.map (fun h => mkHeader h.name h.value), bl) := by
  induction H with
  | nil =>
    intro n v _
    simp [parseLoop, jsTrim, trimLeft, trimRight]
  | cons h H' ih =>
    intro n v hall
    obtain ⟨hn, htn, htv, hnc⟩ := hall h (by simp)
    have hrest : ∀ g ∈ H',
        g.name ≠ [] ∧ jsTrim g.name = g.name ∧ jsTrim g.value = g.value ∧ ':' ∉ g.name :=
      fun g hg => hall g (by simp [hg])
    have hcws : isJsWs (h.name.headD ' ') = false := by
      cases hname : h.name with
      | nil => exact absurd hname hn
      | cons c cs =>
        exact head_not_ws_of_trim_fix c cs (hname ▸ htn)
    have hjt : jsTrim (hline h) ≠ [] := by
      cases hname : h.name with
      | nil => exact absurd hname hn
      | cons c cs =>
        apply jsTrim_ne_nil_of_mem c _ _ (by rw [hname] at hcws; exact hcws)
        rw [hline, hname]
        simp
    have hcs : isContStart (hline h) = false := by
      cases hname : h.name with
      | nil => exact absurd hname hn
      | cons c cs =>
        rw [hname] at hcws
        simp only [List.headD_cons] at hcws
        rw [hline, hname]
        show isContStart (c :: (cs ++ ':' :: ' ' :: h.value)) = false
        simp only [isContStart]
        have h1 : ¬(c = ' ') := by intro hc; rw [hc] at hcws; simp [isJsWs] at hcws
        have h2 : ¬(c = '\t') := by intro hc; rw [hc] at hcws; simp [isJsWs] at hcws
        simp [h1, h2]
    have hsp : splitAtFirst ':' (hline h) = some (h.name, ' ' :: h.value) := by
      rw [hline]
      exact splitAtFirst_append ':' h.name (' ' :: h.value) hnc
    have hstep := parseLoop_colon h.name (' ' :: h.value) (H'.map hline ++ [] :: bl) n v
      (by rw [← hline]; exact hjt) (by rw [← hline]; exact hcs) hnc
    rw [List.map_cons, List.cons_append]
    rw [show (hline h : Str) = h.name ++ ':' :: (' ' :: h.value) from rfl] at hjt hcs ⊢
    rw [hstep, htn, jsTrim_cons_space, htv, ih _ _ hrest]
    have hflush : flushHeader h.name h.value = [mkHeader h.name h.value] := by
      simp [flushHeader, hn]
    rw [hflush]
    simp

/-- Claim C7: for a message whose header-section lines contain no folded
(whitespace-continued) and no malformed (colon-less) lines, parsing,
serializing and parsing again yields the same sequence of header name/value
pairs as the first parse. -/
theorem c7_parse_serialise_roundtrip (text : Str)
    (hgood : ∀ l ∈ headerLines text, isContStart l = false ∧ ':' ∈ l) :
    headerPairs (parseEmail (reSerialiseEmail (parseEmail text).headers
        (parseEmail text).body)).headers
      = headerPairs (parseEmail text).headers := by
  have hlines_prop : ∀ l ∈ headerLines text,
      jsTrim l ≠ [] ∧ isContStart l = false ∧ ':' ∈ l := by
    intro l hl
    have hnb : nonBlank l = true := List.mem_takeWhile_imp hl
    refine ⟨?_, (hgood l hl).1, (hgood l hl).2⟩
    intro hnil
    rw [nonBlank, hnil] at hnb
    simp at hnb
  have hH : (parseEmail text).headers = (headerLines text).filterMap lineHdr := by
    show (parseLoop (splitLinesNL text) [] []).1 = _
    rw [parseLoop_headers_takeWhile]
    rw [show List.takeWhile nonBlank (splitLinesNL text) = headerLines text from rfl]
    rw [parseLoop_filterMap _ [] [] hlines_prop]
    simp [flushHeader]
  have hprops : ∀ h ∈ (parseEmail text).headers,
      h.name ≠ [] ∧ jsTrim h.name = h.name ∧ jsTrim h.value = h.value
        ∧ ':' ∉ h.name ∧ '\n' ∉ hline h := by
    intro h hh
    rw [hH] at hh
    obtain ⟨l, hl, hsome⟩ := List.mem_filterMap.mp hh
    obtain ⟨p1, p2, p3, p4, p5, p6⟩ := lineHdr_props l h hsome
    have hln : '\n' ∉ l := by
      have hmem : l ∈ splitLinesNL text := (List.takeWhile_prefix nonBlank).subset hl
      exact mem_splitOnChar_not '\n' (normalizeNewlines text) l hmem
    refine ⟨p1, p2, p3, p4, ?_⟩
    rw [hline]
    intro hmem
    rcases List.mem_append.mp hmem with hm | hm
    · exact hln (p5 _ hm)
    · rcases List.mem_cons.mp hm with hm2 | hm2
      · exact absurd hm2 (by decide)
      · rcases List.mem_cons.mp hm2 with hm3 | hm3
        · exact absurd hm3 (by decide)
        · exact hln (p6 _ hm3)
  by_cases hnil : (parseEmail text).headers = []
  · rw [hnil]
    have hser : reSerialiseEmail [] (parseEmail text).body
        = '\r' :: '\n' :: ('\r' :: '\n' :: (parseEmail text).body) := by
      unfold reSerialiseEmail
      simp [crlf, List.intercalate]
    have h0 : ∀ b : Str, normalizeNewlines ('\r' :: '\n' :: b) = '\n' :: normalizeNewlines b := by
      intro b
      have := normalize_append_crlf [] b (by simp)
      simpa using this
    have hhead : (parseEmail (reSerialiseEmail [] (parseEmail text).body)).headers = [] := by
      show (parseLoop (splitLinesNL (reSerialiseEmail [] (parseEmail text).body)) [] []).1 = []
      unfold splitLinesNL
      rw [hser, h0, h0, splitOnChar_cons_self]
      simp [parseLoop, jsTrim, trimLeft, trimRight, flushHeader]
    rw [hhead]
  · have hser := ser_lines (parseEmail text).headers (parseEmail text).body
      (fun h hh => (hprops h hh).2.2.2.2) hnil
    have hre : (parseEmail (reSerialiseEmail (parseEmail text).headers
        (parseEmail text).body)).headers
        = (parseEmail text).headers.map (fun h => mkHeader h.name h.value) := by
      show (parseLoop (splitLinesNL (reSerialiseEmail (parseEmail text).headers
          (parseEmail text).body)) [] []).1 = _
      rw [hser]
      rw [parseLoop_hlines _ _ [] []
        (fun h hh => ⟨(hprops h hh).1, (hprops h hh).2.1, (hprops h hh).2.2.1,
          (hprops h hh).2.2.2.1⟩)]
      simp [flushHeader]
    rw [hre]
    simp [headerPairs, List.map_map, Function.comp, mkHeader]

/-- Witness for C7 at a concrete message with clean header lines. -/
theorem c7_witness :
    headerPairs (parseEmail (reSerialiseEmail
        (parseEmail (str "From: a@b\r\nSubject: hi\r\n\r\nbody text")).headers
        (parseEmail (str "From: a@b\r\nSubject: hi\r\n\r\nbody text")).body)).headers
      = headerPairs (parseEmail (str "From: a@b\r\nSubject: hi\r\n\r\nbody text")).headers := by
  exact c7_parse_serialise_roundtrip (str "From: a@b\r\nSubject: hi\r\n\r\nbody text")
    (by decide)

end EW
